import Mathlib

/-!
Verification of the equivalence-class builder and node-relabeling logic of the
"Collapsing Orthologous Nodes" notebook.

The notebook (cells 10-12 and 17-18) does the following:
  * relaxes a directed orthology graph to an undirected one,
  * enumerates its connected components (`nx.connected_components`),
  * records, per component, a `member2index` entry for every member and an
    `index2mgi` entry for the last-seen member whose namespace is `"MGI"`,
  * builds `mapping` by sending every graph node whose component has an MGI
    representative to that representative,
  * updates the attribute dictionaries of target-graph nodes whose `type` is
    Gene/RNA/Protein and which are keys of `mapping`, and
  * relabels all mapped nodes of the target graph (`nx.relabel_nodes`),
    merging nodes that collide on the same new label.

Nodes are (function, namespace, name) triples.  Python dictionaries are
embedded as association lists where a later insert shadows earlier ones
(inserts prepend, lookup takes the first hit).  Iteration order over a graph's
nodes is the first-occurrence order of its node/edge lists.
-/

/-- A BEL gene identifier: a (function, namespace, name) triple, e.g.
`(Gene, HGNC, "TP53")`.  Used as graph node and dictionary key. -/
structure GeneId where
  func : String
  ns : String
  name : String
deriving DecidableEq, Repr

/-- The undirected orthology graph: an explicit node list together with an
edge list (direction already discarded, as after `to_undirected()`). -/
structure UGraph where
  nodes : List GeneId
  edges : List (GeneId × GeneId)
deriving Repr

/-- Append an element if it is not already present (Python `dict`/graph
insertion order: first occurrence wins, later duplicates are ignored). -/
def addNew (acc : List GeneId) (x : GeneId) : List GeneId :=
  if x ∈ acc then acc else acc ++ [x]

/-- The endpoints of an edge list, in order of appearance. -/
def endpointsOf : List (GeneId × GeneId) → List GeneId
  | [] => []
  | e :: rest => e.1 :: e.2 :: endpointsOf rest

/-- The node set of the graph in iteration order: declared nodes followed by
edge endpoints, duplicates removed keeping first occurrences.  This is the
order `for node in graph` iterates in the model. -/
def UGraph.allNodes (g : UGraph) : List GeneId :=
  (g.nodes ++ endpointsOf g.edges).foldl addNew []

/-- Association-list lookup: first (most recently inserted) hit wins. -/
def dlookup {α β : Type} [DecidableEq α] : List (α × β) → α → Option β
  | [], _ => none
  | kv :: rest, k => if kv.1 = k then some kv.2 else dlookup rest k

/-- One connected component: a list of its members in scan order. -/
abbrev CompPart := List GeneId

/-- Whether a component contains one of the two endpoints of an edge. -/
def touches (u v : GeneId) (p : CompPart) : Bool :=
  decide (u ∈ p) || decide (v ∈ p)

/-- Start a fresh singleton component for `u` unless `u` already belongs to
some component. -/
def addNode (parts : List CompPart) (u : GeneId) : List CompPart :=
  if parts.any (fun p => decide (u ∈ p)) then parts else parts ++ [[u]]

/-- Merge all components touching the edge `(u, v)` into a single component. -/
def mergeParts (parts : List CompPart) (u v : GeneId) : List CompPart :=
  (parts.filter (touches u v)).flatten :: parts.filter (fun p => !(touches u v p))

/-- Process one undirected edge: make sure both endpoints have a component,
then merge the components of the two endpoints. -/
def stepEdge (parts : List CompPart) (e : GeneId × GeneId) : List CompPart :=
  mergeParts (addNode (addNode parts e.1) e.2) e.1 e.2

/-- The connected components of the graph, as computed by the library call
`nx.connected_components(orthology_undirected)`: isolated declared nodes form
singleton components, and each edge links its endpoints' components. -/
def componentsOf (g : UGraph) : List CompPart :=
  g.edges.foldl stepEdge (g.nodes.foldl addNode [])

/-- Cell 11, inner loop body over one component `c` that got index `i`:
`member2index[member] = i` for every member, and `index2mgi[i] = member`
whenever the member's namespace is `"MGI"` (a later MGI member shadows an
earlier one). -/
def scanComp (i : Nat) : List GeneId →
    List (GeneId × Nat) × List (Nat × GeneId) →
    List (GeneId × Nat) × List (Nat × GeneId)
  | [], acc => acc
  | x :: rest, acc =>
      scanComp i rest
        ((x, i) :: acc.1, if x.ns = "MGI" then (i, x) :: acc.2 else acc.2)

/-- Cell 11, outer loop from a starting index: enumerate the components,
giving component `c` at offset `j` the index `n + j`. -/
def buildTablesFrom : Nat → List CompPart →
    List (GeneId × Nat) × List (Nat × GeneId) →
    List (GeneId × Nat) × List (Nat × GeneId)
  | _, [], acc => acc
  | i, c :: rest, acc => buildTablesFrom (i + 1) rest (scanComp i c acc)

/-- Cell 11: the `member2index` and `index2mgi` dictionaries built by
enumerating the components from index 0. -/
def buildTables (comps : List CompPart) :
    List (GeneId × Nat) × List (Nat × GeneId) :=
  buildTablesFrom 0 comps ([], [])

/-- Cell 12, loop body: skip a node absent from `member2index`, skip a node
whose component index is absent from `index2mgi`, otherwise record
`mapping[node] = index2mgi[member2index[node]]`. -/
def mapStep (m2i : List (GeneId × Nat)) (i2m : List (Nat × GeneId))
    (mp : List (GeneId × GeneId)) (x : GeneId) : List (GeneId × GeneId) :=
  match dlookup m2i x with
  | none => mp
  | some i =>
    match dlookup i2m i with
    | none => mp
    | some r => (x, r) :: mp

/-- Cell 12: fold the loop body over the graph's nodes. -/
def buildMapping (nodes : List GeneId) (m2i : List (GeneId × Nat))
    (i2m : List (Nat × GeneId)) : List (GeneId × GeneId) :=
  nodes.foldl (mapStep m2i i2m) []

/-- Cells 11-12 end to end: the `mapping` dictionary of the notebook as a
function of the undirected orthology graph. -/
def canonicalMapping (g : UGraph) : List (GeneId × GeneId) :=
  let M := buildTables (componentsOf g)
  buildMapping g.allNodes M.1 M.2

/-- The member of a component with namespace `"MGI"` that is encountered last
in the scan, if any — the value `index2mgi` ends up holding. -/
def lastMGI : List GeneId → Option GeneId
  | [] => none
  | x :: rest =>
    match lastMGI rest with
    | some r => some r
    | none => if x.ns = "MGI" then some x else none

/- Concrete identifiers of the worked example in the notebook's spec. -/

/-- The human gene `(Gene, HGNC, "TP53")` of the worked example. -/
def tp53H : GeneId := ⟨"Gene", "HGNC", "TP53"⟩

/-- The mouse gene `(Gene, MGI, "Trp53")` of the worked example. -/
def tp53M : GeneId := ⟨"Gene", "MGI", "Trp53"⟩

/-- The rat gene `(Gene, RGD, "Tp53")` of the worked example. -/
def tp53R : GeneId := ⟨"Gene", "RGD", "Tp53"⟩

/-- The worked example's orthology graph: the two edges
HGNC:TP53 – MGI:Trp53 and MGI:Trp53 – RGD:Tp53. -/
def exGraph : UGraph := ⟨[], [(tp53H, tp53M), (tp53M, tp53R)]⟩



/-- Invariant of the component list: every component is duplicate-free and
nonempty, and distinct components are disjoint. -/
structure PartsInv (parts : List CompPart) : Prop where
  nodup : ∀ p ∈ parts, p.Nodup
  nonempty : ∀ p ∈ parts, p ≠ []
  disj : parts.Pairwise List.Disjoint

/-- The index the enumeration starting at `n` assigns to the component
containing `x` (a later component shadows an earlier one, mirroring
dictionary overwrites; under disjointness there is at most one). -/
def findCompIdx : Nat → List CompPart → GeneId → Option Nat
  | _, [], _ => none
  | n, c :: rest, x =>
    match findCompIdx (n + 1) rest x with
    | some i => some i
    | none => if x ∈ c then some n else none

/-- The component to which the enumeration starting at `n` assigns
index `j`, if any. -/
def findCompAt : Nat → List CompPart → Nat → Option CompPart
  | _, [], _ => none
  | n, c :: rest, j =>
    match findCompAt (n + 1) rest j with
    | some c2 => some c2
    | none => if j = n then some c else none

/-- The value the loop body of cell 12 would assign to a node: the
`index2mgi` entry of its `member2index` entry, when both exist. -/
def mapVal (m2i : List (GeneId × Nat)) (i2m : List (Nat × GeneId))
    (x : GeneId) : Option GeneId :=
  match dlookup m2i x with
  | none => none
  | some i => dlookup i2m i

/-! ### The target corpus graph and cells 17-18 -/

/-- A node's attribute dictionary, string-keyed (Python dict semantics:
first hit of `dlookup` is the most recent insert). -/
abbrev AttrDict := List (String × String)

/-- Python `d.update(e)`: the entries of `e` win on key collision; with
first-hit lookup this is `e ++ d`. -/
def dictUpdate (d e : AttrDict) : AttrDict := e ++ d

/-- The target corpus graph: a directed graph with attributed nodes and
attributed edges (the BEL corpus loaded in cell 14). -/
structure DiGraph where
  nodes : List (GeneId × AttrDict)
  edges : List (GeneId × GeneId × AttrDict)

/-- The tuple `('Gene','RNA','Protein')` of cell 17. -/
def allowedTypes : List String := ["Gene", "RNA", "Protein"]

/-- Cell 17, per node: when the node's `type` is allowed and the node is a
key of the mapping, merge in the orthology node's attributes
(`g.node[name].update(orthology_undirected.node[mapping[name]])`). -/
def mndFun (orthAttr : GeneId → AttrDict) (mp : List (GeneId × GeneId))
    (nd : GeneId × AttrDict) : GeneId × AttrDict :=
  match dlookup nd.2 "type", dlookup mp nd.1 with
  | some t, some c =>
    if t ∈ allowedTypes then (nd.1, dictUpdate nd.2 (orthAttr c)) else nd
  | _, _ => nd

/-- Cell 17: the node-data update pass over the whole target graph. -/
def mapNodeData (g : DiGraph) (orthAttr : GeneId → AttrDict)
    (mp : List (GeneId × GeneId)) : DiGraph :=
  { g with nodes := g.nodes.map (mndFun orthAttr mp) }

/-- The relabeling function of cell 18:
`lambda n: mapping[n] if n in mapping else n`. -/
def relabelFn (mp : List (GeneId × GeneId)) (n : GeneId) : GeneId :=
  match dlookup mp n with
  | some c => c
  | none => n

/-- Re-insert one node under a (possibly new) label: on collision with an
existing label the attribute dictionaries are merged, the incoming node's
values winning — the `add_node(new, attr_dict=G.node[old])` semantics of
`nx.relabel_nodes`. -/
def insertMerge (acc : List (GeneId × AttrDict)) (n : GeneId)
    (d : AttrDict) : List (GeneId × AttrDict) :=
  match dlookup acc n with
  | some old =>
    acc.map (fun kv => if kv.1 = n then (n, dictUpdate old d) else kv)
  | none => acc ++ [(n, d)]

/-- One step of the relabeling fold. -/
def relabelStep (mp : List (GeneId × GeneId))
    (acc : List (GeneId × AttrDict)) (nd : GeneId × AttrDict) :
    List (GeneId × AttrDict) :=
  insertMerge acc (relabelFn mp nd.1) nd.2

/-- Cell 18, `nx.relabel_nodes(g, ..., copy=False)`: every node is
re-inserted under its new label (merging on collision) and every edge is
re-pointed through the relabeling function. -/
def relabelNodes (g : DiGraph) (mp : List (GeneId × GeneId)) : DiGraph :=
  { nodes := g.nodes.foldl (relabelStep mp) [],
    edges := g.edges.map
      (fun e => (relabelFn mp e.1, relabelFn mp e.2.1, e.2.2)) }

/-- Cells 17 and 18 composed: the whole application of the mapping to the
target corpus graph. -/
def applyMapping (g : DiGraph) (orthAttr : GeneId → AttrDict)
    (mp : List (GeneId × GeneId)) : DiGraph :=
  relabelNodes (mapNodeData g orthAttr mp) mp

/-- Restriction to an edge list only (no declared isolated nodes), for
stating partition properties of the component computation over edge sets. -/
def graphOfEdges (E : List (GeneId × GeneId)) : UGraph := ⟨[], E⟩

/-- The attribute value at key `k` of node `n` of a target graph. -/
def attrOf (G : DiGraph) (n : GeneId) (k : String) : Option String :=
  match dlookup G.nodes n with
  | some d => dlookup d k
  | none => none

/-- The human gene `(Gene, HGNC, "FOO")` of the MGI-less example
component. -/
def fooH : GeneId := ⟨"Gene", "HGNC", "FOO"⟩

/-- The rat gene `(Gene, RGD, "Foo")` of the MGI-less example component. -/
def fooR : GeneId := ⟨"Gene", "RGD", "Foo"⟩

/-- Orthology graph whose single component has no MGI member. -/
def fooGraph : UGraph := ⟨[], [(fooH, fooR)]⟩

/-- First of two MGI members sharing one component. -/
def mgiA : GeneId := ⟨"Gene", "MGI", "A"⟩

/-- Second of two MGI members sharing one component. -/
def mgiB : GeneId := ⟨"Gene", "MGI", "B"⟩

/-- Orthology graph whose single component has two MGI members. -/
def twoMGIGraph : UGraph := ⟨[], [(mgiA, mgiB)]⟩

/-- Orthology graph with a declared isolated node besides one edge. -/
def isoGraph : UGraph := ⟨[fooH], [(tp53H, tp53M)]⟩

/-- Orthology-node attributes used in the relabeling examples. -/
def exOrthAttr : GeneId → AttrDict :=
  fun n => if n = tp53M then [("type", "Gene"), ("species", "10090")] else []

/-- Target graph whose only node has a `type` outside the allowed set but
is a key of the mapping. -/
def badTypeTarget : DiGraph := ⟨[(tp53H, [("type", "Pathology")])], []⟩

/-- Target graph whose only node qualifies for the attribute merge. -/
def goodTarget : DiGraph := ⟨[(tp53H, [("type", "Gene"), ("foo", "bar")])], []⟩

/-- First of two target nodes that collide after relabeling. -/
def colA : GeneId := ⟨"Gene", "HGNC", "K1"⟩

/-- Second of two target nodes that collide after relabeling. -/
def colB : GeneId := ⟨"Gene", "RGD", "K2"⟩

/-- The shared canonical target of the collision example. -/
def colC : GeneId := ⟨"Gene", "MGI", "K"⟩

/-- An unrelated bystander node of the collision example. -/
def colD : GeneId := ⟨"Gene", "HGNC", "other"⟩

/-- A mapping sending both colliding nodes to the same canonical target. -/
def colMap : List (GeneId × GeneId) := [(colA, colC), (colB, colC)]

/-- Target graph with two nodes that collide after relabeling, each
carrying its own attributes and incident edges. -/
def colGraph : DiGraph :=
  ⟨[(colA, [("a", "1")]), (colB, [("b", "2")]), (colD, [("type", "Gene")])],
   [(colA, colD, [("rel", "increases")]), (colD, colB, [("rel", "decreases")])]⟩

/-- Target graph for the frame example: one mapped and one unmapped node. -/
def frameTarget : DiGraph :=
  ⟨[(tp53H, [("type", "Gene")]), (fooH, [("type", "Gene"), ("x", "y")])], []⟩

/-! ### Association-list lemmas -/

theorem dlookup_append {α β : Type} [DecidableEq α] (l₁ l₂ : List (α × β))
    (k : α) : dlookup (l₁ ++ l₂) k =
      match dlookup l₁ k with
      | some v => some v
      | none => dlookup l₂ k := by
  induction l₁ with
  | nil => simp [dlookup]
  | cons kv rest ih =>
    by_cases h : kv.1 = k <;> simp [dlookup, h, ih]

theorem dlookup_eq_none_iff {α β : Type} [DecidableEq α]
    (l : List (α × β)) (k : α) :
    dlookup l k = none ↔ k ∉ l.map Prod.fst := by
  induction l with
  | nil => simp [dlookup]
  | cons kv rest ih =>
    by_cases h : kv.1 = k
    · simp [dlookup, h]
    · simp only [dlookup, if_neg h, ih, List.map_cons, List.mem_cons]
      constructor
      · rintro hn (hh | hh)
        · exact h hh.symm
        · exact hn hh
      · exact fun hn hh => hn (Or.inr hh)

theorem dlookup_isSome_iff {α β : Type} [DecidableEq α]
    (l : List (α × β)) (k : α) :
    (dlookup l k).isSome = true ↔ k ∈ l.map Prod.fst := by
  rw [← Decidable.not_iff_not, ← dlookup_eq_none_iff l k]
  cases dlookup l k <;> simp

theorem dlookup_mem {α β : Type} [DecidableEq α]
    {l : List (α × β)} {k : α} {v : β} (h : dlookup l k = some v) :
    (k, v) ∈ l := by
  induction l with
  | nil => simp [dlookup] at h
  | cons kv rest ih =>
    by_cases hk : kv.1 = k
    · simp only [dlookup, if_pos hk] at h
      obtain ⟨a, b⟩ := kv
      cases h
      simp_all
    · simp only [dlookup, if_neg hk] at h
      exact List.mem_cons_of_mem _ (ih h)

theorem dlookup_of_mem_nodup {α β : Type} [DecidableEq α]
    {l : List (α × β)} {k : α} {v : β}
    (hn : (l.map Prod.fst).Nodup) (h : (k, v) ∈ l) :
    dlookup l k = some v := by
  induction l with
  | nil => simp at h
  | cons kv rest ih =>
    simp only [List.map_cons, List.nodup_cons] at hn
    rcases List.mem_cons.mp h with h | h
    · cases h; simp [dlookup]
    · have hk : kv.1 ≠ k := by
        intro he
        exact hn.1 (he ▸ (List.mem_map_of_mem Prod.fst h))
      simp [dlookup, hk, ih hn.2 h]

theorem mem_values_unique {α β : Type} [DecidableEq α]
    {l : List (α × β)} {k : α} {v v' : β}
    (hn : (l.map Prod.fst).Nodup) (h : (k, v) ∈ l) (h' : (k, v') ∈ l) :
    v = v' := by
  have h1 := dlookup_of_mem_nodup hn h
  have h2 := dlookup_of_mem_nodup hn h'
  rw [h1] at h2
  exact (Option.some.injEq _ _).mp h2

/-! ### Node-enumeration lemmas -/

theorem mem_foldl_addNew (l : List GeneId) (acc : List GeneId) (x : GeneId) :
    x ∈ l.foldl addNew acc ↔ x ∈ acc ∨ x ∈ l := by
  induction l generalizing acc with
  | nil => simp
  | cons y rest ih =>
    by_cases h : y ∈ acc
    · simp only [List.foldl_cons, addNew, if_pos h, ih]
      constructor
      · rintro (hx | hx) <;> simp_all
      · rintro (hx | hx)
        · exact Or.inl hx
        · rcases List.mem_cons.mp hx with rfl | hx
          · exact Or.inl h
          · exact Or.inr hx
    · simp only [List.foldl_cons, addNew, if_neg h, ih, List.mem_append,
        List.mem_singleton, List.mem_cons]
      tauto

theorem nodup_foldl_addNew (l : List GeneId) (acc : List GeneId)
    (h : acc.Nodup) : (l.foldl addNew acc).Nodup := by
  induction l generalizing acc with
  | nil => simpa
  | cons y rest ih =>
    by_cases hy : y ∈ acc
    · simpa [addNew, hy] using ih acc h
    · simp only [List.foldl_cons, addNew, if_neg hy]
      refine ih (acc ++ [y]) ?_
      simp [List.nodup_append, h, hy]

theorem mem_endpointsOf (E : List (GeneId × GeneId)) (x : GeneId) :
    x ∈ endpointsOf E ↔ ∃ e ∈ E, x = e.1 ∨ x = e.2 := by
  induction E with
  | nil => simp [endpointsOf]
  | cons e rest ih =>
    simp only [endpointsOf, List.mem_cons, ih]
    constructor
    · rintro (rfl | rfl | ⟨e', he', h⟩)
      · exact ⟨e, Or.inl rfl, Or.inl rfl⟩
      · exact ⟨e, Or.inl rfl, Or.inr rfl⟩
      · exact ⟨e', Or.inr he', h⟩
    · rintro ⟨e', (rfl | he'), h⟩
      · rcases h with rfl | rfl
        · exact Or.inl rfl
        · exact Or.inr (Or.inl rfl)
      · exact Or.inr (Or.inr ⟨e', he', h⟩)

theorem mem_allNodes (g : UGraph) (x : GeneId) :
    x ∈ g.allNodes ↔ x ∈ g.nodes ∨ ∃ e ∈ g.edges, x = e.1 ∨ x = e.2 := by
  unfold UGraph.allNodes
  rw [mem_foldl_addNew, List.mem_append, mem_endpointsOf]
  simp

theorem allNodes_nodup (g : UGraph) : g.allNodes.Nodup :=
  nodup_foldl_addNew _ [] List.nodup_nil

/-! ### Invariants of the evolving component list -/


theorem partsInv_nil : PartsInv [] :=
  ⟨by simp, by simp, List.Pairwise.nil⟩

theorem disjoint_symmetric : Symmetric (List.Disjoint (α := GeneId)) :=
  fun _ _ h => h.symm

/-- Under the invariant, the component containing a node is unique. -/
theorem comp_unique {parts : List CompPart} (hinv : PartsInv parts)
    {p q : CompPart} {x : GeneId} (hp : p ∈ parts) (hq : q ∈ parts)
    (hxp : x ∈ p) (hxq : x ∈ q) : p = q := by
  by_contra hne
  exact (hinv.disj.forall disjoint_symmetric hp hq hne) hxp hxq

theorem addNode_mem (parts : List CompPart) (u x : GeneId) :
    (∃ p ∈ addNode parts u, x ∈ p) ↔ (∃ p ∈ parts, x ∈ p) ∨ x = u := by
  unfold addNode
  by_cases h : parts.any (fun p => decide (u ∈ p))
  · simp only [if_pos h]
    constructor
    · exact Or.inl
    · rintro (hx | rfl)
      · exact hx
      · obtain ⟨p, hp, hup⟩ := List.any_eq_true.mp h
        exact ⟨p, hp, by simpa using hup⟩
  · simp only [if_neg h, List.mem_append, List.mem_singleton]
    constructor
    · rintro ⟨p, hp | rfl, hx⟩
      · exact Or.inl ⟨p, hp, hx⟩
      · simp only [List.mem_singleton] at hx
        exact Or.inr hx
    · rintro (⟨p, hp, hx⟩ | rfl)
      · exact ⟨p, Or.inl hp, hx⟩
      · exact ⟨[x], Or.inr rfl, List.mem_singleton_self x⟩

theorem addNode_contains (parts : List CompPart) (u : GeneId) :
    ∃ p ∈ addNode parts u, u ∈ p :=
  (addNode_mem parts u u).mpr (Or.inr rfl)

theorem addNode_inv {parts : List CompPart} (hinv : PartsInv parts)
    (u : GeneId) : PartsInv (addNode parts u) := by
  unfold addNode
  by_cases h : parts.any (fun p => decide (u ∈ p))
  · rw [if_pos h]
    exact hinv
  · rw [if_neg h]
    have hu : ∀ p ∈ parts, u ∉ p := by
      intro p hp hup
      exact h (List.any_eq_true.mpr ⟨p, hp, by simpa using hup⟩)
    refine ⟨?_, ?_, ?_⟩
    · intro p hp
      rcases List.mem_append.mp hp with hp | hp
      · exact hinv.nodup p hp
      · simp only [List.mem_singleton] at hp
        subst hp
        exact List.nodup_singleton u
    · intro p hp
      rcases List.mem_append.mp hp with hp | hp
      · exact hinv.nonempty p hp
      · simp only [List.mem_singleton] at hp
        subst hp
        simp
    · rw [List.pairwise_append]
      refine ⟨hinv.disj, by simp, ?_⟩
      intro p hp q hq
      simp only [List.mem_singleton] at hq
      subst hq
      intro x hxp hxq
      simp only [List.mem_singleton] at hxq
      subst hxq
      exact hu p hp hxp

theorem mergeParts_mem (parts : List CompPart) (u v x : GeneId) :
    (∃ p ∈ mergeParts parts u v, x ∈ p) ↔ ∃ p ∈ parts, x ∈ p := by
  unfold mergeParts
  constructor
  · rintro ⟨p, hp, hx⟩
    rcases List.mem_cons.mp hp with rfl | hp
    · obtain ⟨q, hq, hxq⟩ := List.mem_flatten.mp hx
      exact ⟨q, (List.mem_filter.mp hq).1, hxq⟩
    · exact ⟨p, (List.mem_filter.mp hp).1, hx⟩
  · rintro ⟨p, hp, hx⟩
    by_cases ht : touches u v p
    · refine ⟨(parts.filter (touches u v)).flatten, List.mem_cons_self _ _, ?_⟩
      exact List.mem_flatten.mpr ⟨p, List.mem_filter.mpr ⟨hp, ht⟩, hx⟩
    · refine ⟨p, List.mem_cons_of_mem _ ?_, hx⟩
      exact List.mem_filter.mpr ⟨hp, by simpa using ht⟩

theorem mergeParts_inv {parts : List CompPart} (hinv : PartsInv parts)
    {u : GeneId} (v : GeneId) (hu : ∃ p ∈ parts, u ∈ p) :
    PartsInv (mergeParts parts u v) := by
  obtain ⟨pu, hpu, hupu⟩ := hu
  have hfilt_disj : (parts.filter (touches u v)).Pairwise List.Disjoint :=
    hinv.disj.sublist (List.filter_sublist parts)
  unfold mergeParts
  refine ⟨?_, ?_, ?_⟩
  · intro p hp
    rcases List.mem_cons.mp hp with rfl | hp
    · refine List.nodup_flatten.mpr ⟨?_, hfilt_disj⟩
      intro l hl
      exact hinv.nodup l (List.mem_filter.mp hl).1
    · exact hinv.nodup p (List.mem_filter.mp hp).1
  · intro p hp
    rcases List.mem_cons.mp hp with rfl | hp
    · intro hfl
      have : u ∈ (parts.filter (touches u v)).flatten := by
        refine List.mem_flatten.mpr ⟨pu, List.mem_filter.mpr ⟨hpu, ?_⟩, hupu⟩
        simp [touches, hupu]
      rw [hfl] at this
      simp at this
    · exact hinv.nonempty p (List.mem_filter.mp hp).1
  · rw [List.pairwise_cons]
    constructor
    · intro q hq x hxfl hxq
      obtain ⟨p, hp, hxp⟩ := List.mem_flatten.mp hxfl
      have hpmem := (List.mem_filter.mp hp).1
      have hpt := (List.mem_filter.mp hp).2
      have hqmem := (List.mem_filter.mp hq).1
      have hqt := (List.mem_filter.mp hq).2
      have hpq : p ≠ q := by
        intro he
        rw [he] at hpt
        simp [hpt] at hqt
      exact (hinv.disj.forall disjoint_symmetric hpmem hqmem hpq) hxp hxq
    · exact hinv.disj.sublist (List.filter_sublist parts)

theorem stepEdge_mem (parts : List CompPart) (e : GeneId × GeneId)
    (x : GeneId) :
    (∃ p ∈ stepEdge parts e, x ∈ p) ↔
      (∃ p ∈ parts, x ∈ p) ∨ x = e.1 ∨ x = e.2 := by
  unfold stepEdge
  rw [mergeParts_mem, addNode_mem, addNode_mem]
  exact or_assoc

theorem stepEdge_inv {parts : List CompPart} (hinv : PartsInv parts)
    (e : GeneId × GeneId) : PartsInv (stepEdge parts e) := by
  unfold stepEdge
  refine mergeParts_inv (addNode_inv (addNode_inv hinv e.1) e.2) e.2 ?_
  rw [addNode_mem]
  exact Or.inl (addNode_contains parts e.1)

theorem foldl_addNode_inv (l : List GeneId) (parts : List CompPart)
    (hinv : PartsInv parts) : PartsInv (l.foldl addNode parts) := by
  induction l generalizing parts with
  | nil => simpa
  | cons y rest ih => exact ih _ (addNode_inv hinv y)

theorem foldl_addNode_mem (l : List GeneId) (parts : List CompPart)
    (x : GeneId) :
    (∃ p ∈ l.foldl addNode parts, x ∈ p) ↔ (∃ p ∈ parts, x ∈ p) ∨ x ∈ l := by
  induction l generalizing parts with
  | nil => simp
  | cons y rest ih =>
    simp only [List.foldl_cons, ih, addNode_mem, List.mem_cons]
    exact or_assoc

theorem foldl_stepEdge_inv (E : List (GeneId × GeneId))
    (parts : List CompPart) (hinv : PartsInv parts) :
    PartsInv (E.foldl stepEdge parts) := by
  induction E generalizing parts with
  | nil => simpa
  | cons e rest ih => exact ih _ (stepEdge_inv hinv e)

theorem foldl_stepEdge_mem (E : List (GeneId × GeneId))
    (parts : List CompPart) (x : GeneId) :
    (∃ p ∈ E.foldl stepEdge parts, x ∈ p) ↔
      (∃ p ∈ parts, x ∈ p) ∨ ∃ e ∈ E, x = e.1 ∨ x = e.2 := by
  induction E generalizing parts with
  | nil => simp
  | cons e rest ih =>
    simp only [List.foldl_cons, ih, stepEdge_mem, List.mem_cons]
    constructor
    · rintro (h | h)
      · rcases h with h | h | h
        · exact Or.inl h
        · exact Or.inr ⟨e, Or.inl rfl, Or.inl h⟩
        · exact Or.inr ⟨e, Or.inl rfl, Or.inr h⟩
      · obtain ⟨e', he', hh⟩ := h
        exact Or.inr ⟨e', Or.inr he', hh⟩
    · rintro (h | ⟨e', (rfl | he'), hh⟩)
      · exact Or.inl (Or.inl h)
      · rcases hh with h | h
        · exact Or.inl (Or.inr (Or.inl h))
        · exact Or.inl (Or.inr (Or.inr h))
      · exact Or.inr ⟨e', he', hh⟩

/-- The computed component list satisfies the invariant. -/
theorem componentsOf_inv (g : UGraph) : PartsInv (componentsOf g) :=
  foldl_stepEdge_inv _ _ (foldl_addNode_inv _ _ partsInv_nil)

/-- The computed components cover exactly the nodes of the graph. -/
theorem componentsOf_cover (g : UGraph) (x : GeneId) :
    (∃ p ∈ componentsOf g, x ∈ p) ↔ x ∈ g.allNodes := by
  unfold componentsOf
  rw [foldl_stepEdge_mem, foldl_addNode_mem, mem_allNodes]
  simp [mem_endpointsOf]

/-! ### Characterizing the dictionaries of cell 11 -/


theorem findCompAt_ge {n : Nat} {comps : List CompPart} {j : Nat}
    {c : CompPart} (h : findCompAt n comps j = some c) : n ≤ j := by
  induction comps generalizing n c with
  | nil => simp [findCompAt] at h
  | cons c0 rest ih =>
    simp only [findCompAt] at h
    cases hr : findCompAt (n + 1) rest j with
    | some c2 =>
      rw [hr] at h
      exact Nat.le_of_succ_le (ih hr)
    | none =>
      rw [hr] at h
      by_cases hj : j = n
      · omega
      · simp [hj] at h

theorem findCompAt_mem {n : Nat} {comps : List CompPart} {j : Nat}
    {c : CompPart} (h : findCompAt n comps j = some c) : c ∈ comps := by
  induction comps generalizing n c with
  | nil => simp [findCompAt] at h
  | cons c0 rest ih =>
    simp only [findCompAt] at h
    cases hr : findCompAt (n + 1) rest j with
    | some c2 =>
      rw [hr] at h
      have h2 : c2 = c := Option.some.inj h
      rw [h2] at hr
      exact List.mem_cons_of_mem _ (ih hr)
    | none =>
      rw [hr] at h
      by_cases hj : j = n
      · simp only [if_pos hj] at h
        obtain rfl : c0 = c := Option.some.inj h
        exact List.mem_cons_self _ _
      · simp [hj] at h

theorem findCompAt_self {comps : List CompPart} {c : CompPart}
    (h : c ∈ comps) (n : Nat) : ∃ j, findCompAt n comps j = some c := by
  induction comps generalizing n with
  | nil => simp at h
  | cons c0 rest ih =>
    rcases List.mem_cons.mp h with rfl | h
    · refine ⟨n, ?_⟩
      simp only [findCompAt]
      cases hr : findCompAt (n + 1) rest n with
      | some c2 => exact absurd (findCompAt_ge hr) (by omega)
      | none => simp
    · obtain ⟨j, hj⟩ := ih h (n + 1)
      exact ⟨j, by simp [findCompAt, hj]⟩

theorem findCompIdx_none {n : Nat} {comps : List CompPart} {x : GeneId} :
    findCompIdx n comps x = none ↔ ∀ p ∈ comps, x ∉ p := by
  induction comps generalizing n with
  | nil => simp [findCompIdx]
  | cons c0 rest ih =>
    simp only [findCompIdx]
    cases hr : findCompIdx (n + 1) rest x with
    | some i =>
      simp only []
      constructor
      · intro h
        exact absurd h (by simp)
      · intro h
        have : findCompIdx (n + 1) rest x = none :=
          ih.mpr (fun p hp => h p (List.mem_cons_of_mem _ hp))
        rw [this] at hr
        cases hr
    | none =>
      have hrest := ih.mp hr
      by_cases hx : x ∈ c0
      · simp only [if_pos hx]
        constructor
        · intro h
          exact absurd h (by simp)
        · intro h
          exact absurd hx (h c0 (List.mem_cons_self _ _))
      · simp only [if_neg hx]
        constructor
        · intro _ p hp
          rcases List.mem_cons.mp hp with rfl | hp
          · exact hx
          · exact hrest p hp
        · intro _
          trivial

theorem findCompIdx_of_mem {comps : List CompPart}
    (hdisj : comps.Pairwise List.Disjoint) {x : GeneId} {c : CompPart}
    (hx : x ∈ c) {n j : Nat} (hc : findCompAt n comps j = some c) :
    findCompIdx n comps x = some j := by
  induction comps generalizing n with
  | nil => simp [findCompAt] at hc
  | cons c0 rest ih =>
    rw [List.pairwise_cons] at hdisj
    simp only [findCompAt] at hc
    simp only [findCompIdx]
    cases hr : findCompAt (n + 1) rest j with
    | some c2 =>
      rw [hr] at hc
      cases hc
      rw [ih hdisj.2 hr]
    | none =>
      rw [hr] at hc
      by_cases hj : j = n
      · subst hj
        simp only [if_pos rfl] at hc
        cases hc
        have : findCompIdx (j + 1) rest x = none :=
          findCompIdx_none.mpr (fun p hp hxp => (hdisj.1 p hp) hx hxp)
        rw [this]
        simp [hx]
      · simp [hj] at hc

/-- One component scan of cell 11: effect on `member2index`. -/
theorem scanComp_fst (c : List GeneId) (i : Nat)
    (acc : List (GeneId × Nat) × List (Nat × GeneId)) (x : GeneId) :
    dlookup (scanComp i c acc).1 x =
      if x ∈ c then some i else dlookup acc.1 x := by
  induction c generalizing acc with
  | nil => simp [scanComp]
  | cons y rest ih =>
    simp only [scanComp, ih, List.mem_cons]
    by_cases hr : x ∈ rest
    · simp [hr]
    · by_cases hy : x = y
      · simp [hr, hy, dlookup]
      · have : ¬(y = x) := fun h => hy h.symm
        simp [hr, hy, dlookup, this]

/-- One component scan of cell 11: effect on `index2mgi` — on the
component's own index it records the last MGI member, if any. -/
theorem scanComp_snd (c : List GeneId) (i : Nat)
    (acc : List (GeneId × Nat) × List (Nat × GeneId)) (j : Nat) :
    dlookup (scanComp i c acc).2 j =
      if j = i then
        match lastMGI c with
        | some r => some r
        | none => dlookup acc.2 i
      else dlookup acc.2 j := by
  induction c generalizing acc with
  | nil =>
    by_cases hj : j = i
    · subst hj
      simp [scanComp, lastMGI]
    · simp [scanComp, lastMGI, hj]
  | cons y rest ih =>
    simp only [scanComp, ih, lastMGI]
    by_cases hj : j = i
    · subst hj
      cases hlm : lastMGI rest with
      | some r => simp
      | none =>
        by_cases hy : y.ns = "MGI"
        · simp [hy, dlookup]
        · simp [hy]
    · cases hlm : lastMGI rest with
      | some r =>
        by_cases hy : y.ns = "MGI"
        · have hij : ¬(i = j) := fun h => hj h.symm
          simp [hy, hj, dlookup, hij]
        · simp [hy, hj]
      | none =>
        by_cases hy : y.ns = "MGI"
        · have hij : ¬(i = j) := fun h => hj h.symm
          simp [hy, hj, dlookup, hij]
        · simp [hy, hj]

/-- The full enumeration of cell 11: `member2index` lookup. -/
theorem btf_fst (comps : List CompPart) (n : Nat)
    (acc : List (GeneId × Nat) × List (Nat × GeneId)) (x : GeneId) :
    dlookup (buildTablesFrom n comps acc).1 x =
      match findCompIdx n comps x with
      | some i => some i
      | none => dlookup acc.1 x := by
  induction comps generalizing n acc with
  | nil => simp [buildTablesFrom, findCompIdx]
  | cons c rest ih =>
    simp only [buildTablesFrom, findCompIdx, ih, scanComp_fst]
    cases hr : findCompIdx (n + 1) rest x with
    | some i => simp
    | none =>
      by_cases hx : x ∈ c <;> simp [hx]

/-- The full enumeration of cell 11: `index2mgi` lookup. -/
theorem btf_snd (comps : List CompPart) (n : Nat)
    (acc : List (GeneId × Nat) × List (Nat × GeneId)) (j : Nat) :
    dlookup (buildTablesFrom n comps acc).2 j =
      match findCompAt n comps j with
      | some c =>
        match lastMGI c with
        | some r => some r
        | none => dlookup acc.2 j
      | none => dlookup acc.2 j := by
  induction comps generalizing n acc with
  | nil => simp [buildTablesFrom, findCompAt]
  | cons c rest ih =>
    simp only [buildTablesFrom, findCompAt, ih, scanComp_snd]
    cases hr : findCompAt (n + 1) rest j with
    | some c2 =>
      have hge : n + 1 ≤ j := findCompAt_ge hr
      have hj : ¬(j = n) := by omega
      cases hlm : lastMGI c2 with
      | some r => simp [hlm]
      | none => simp [hlm, hj]
    | none =>
      by_cases hj : j = n
      · subst hj
        cases hlm : lastMGI c <;> simp [hlm]
      · simp [hj]

/-- Lookup in `member2index`, end to end. -/
theorem m2i_lookup (comps : List CompPart) (x : GeneId) :
    dlookup (buildTables comps).1 x = findCompIdx 0 comps x := by
  unfold buildTables
  rw [btf_fst]
  cases findCompIdx 0 comps x <;> simp [dlookup]

/-- Lookup in `index2mgi`, end to end: the component that got index `j`
contributes its last-seen MGI member. -/
theorem i2m_lookup (comps : List CompPart) (j : Nat) :
    dlookup (buildTables comps).2 j =
      match findCompAt 0 comps j with
      | some c => lastMGI c
      | none => none := by
  unfold buildTables
  rw [btf_snd]
  cases findCompAt 0 comps j with
  | some c => cases hlm : lastMGI c <;> simp [hlm, dlookup]
  | none => simp [dlookup]

/-! ### Characterizing the mapping of cell 12 -/


theorem dlookup_mapStep (m2i : List (GeneId × Nat))
    (i2m : List (Nat × GeneId)) (mp : List (GeneId × GeneId))
    (x y : GeneId) :
    dlookup (mapStep m2i i2m mp x) y =
      if y = x then
        match mapVal m2i i2m x with
        | some r => some r
        | none => dlookup mp y
      else dlookup mp y := by
  unfold mapStep mapVal
  cases hi : dlookup m2i x with
  | none =>
    by_cases hy : y = x <;> simp [hy]
  | some i =>
    cases hr : dlookup i2m i with
    | none =>
      by_cases hy : y = x <;> simp [hy, hr]
    | some r =>
      by_cases hy : y = x
      · subst hy
        simp [dlookup, hr]
      · have hxy : ¬(x = y) := fun h => hy h.symm
        simp [dlookup, hy, hxy, hr]

theorem bm_lookup (nodes : List GeneId) (m2i : List (GeneId × Nat))
    (i2m : List (Nat × GeneId)) (acc : List (GeneId × GeneId))
    (hn : nodes.Nodup) (y : GeneId) :
    dlookup (nodes.foldl (mapStep m2i i2m) acc) y =
      match mapVal m2i i2m y with
      | some r => if y ∈ nodes then some r else dlookup acc y
      | none => dlookup acc y := by
  induction nodes generalizing acc with
  | nil => cases mapVal m2i i2m y <;> simp
  | cons x rest ih =>
    simp only [List.nodup_cons] at hn
    simp only [List.foldl_cons]
    rw [ih _ hn.2]
    cases hv : mapVal m2i i2m y with
    | some r =>
      by_cases hyr : y ∈ rest
      · simp [hyr]
      · rw [dlookup_mapStep]
        by_cases hyx : y = x
        · subst hyx
          simp [hv, hyr]
        · simp [hyx, hyr]
    | none =>
      rw [dlookup_mapStep]
      by_cases hyx : y = x
      · subst hyx
        simp [hv]
      · simp [hyx]

/-- End-to-end lookup in the notebook's `mapping`: a node of the graph is
looked up through `member2index` and `index2mgi`; anything else is absent. -/
theorem canonical_lookup (g : UGraph) (y : GeneId) :
    dlookup (canonicalMapping g) y =
      if y ∈ g.allNodes then
        mapVal (buildTables (componentsOf g)).1
          (buildTables (componentsOf g)).2 y
      else none := by
  unfold canonicalMapping buildMapping
  rw [bm_lookup _ _ _ _ (allNodes_nodup g)]
  cases hv : mapVal (buildTables (componentsOf g)).1
      (buildTables (componentsOf g)).2 y with
  | some r => by_cases hy : y ∈ g.allNodes <;> simp [hy, dlookup]
  | none => by_cases hy : y ∈ g.allNodes <;> simp [hy, dlookup]

/-- A member of a computed component is mapped exactly to that component's
last-seen MGI member (or absent from the mapping when there is none). -/
theorem mapping_lookup_char {g : UGraph} {c : CompPart} {y : GeneId}
    (hc : c ∈ componentsOf g) (hy : y ∈ c) :
    dlookup (canonicalMapping g) y = lastMGI c := by
  obtain ⟨j, hj⟩ := findCompAt_self hc 0
  have hidx : findCompIdx 0 (componentsOf g) y = some j :=
    findCompIdx_of_mem (componentsOf_inv g).disj hy hj
  have hyall : y ∈ g.allNodes := (componentsOf_cover g y).mp ⟨c, hc, hy⟩
  rw [canonical_lookup, if_pos hyall]
  unfold mapVal
  rw [m2i_lookup, hidx]
  show dlookup (buildTables (componentsOf g)).2 j = lastMGI c
  rw [i2m_lookup, hj]

/-- Any hit in the mapping comes from the node's own component and is that
component's last-seen MGI member. -/
theorem mapping_some_elim {g : UGraph} {y r : GeneId}
    (h : dlookup (canonicalMapping g) y = some r) :
    ∃ c ∈ componentsOf g, y ∈ c ∧ lastMGI c = some r := by
  by_cases hy : y ∈ g.allNodes
  · obtain ⟨c, hc, hyc⟩ := (componentsOf_cover g y).mpr hy
    refine ⟨c, hc, hyc, ?_⟩
    rw [← mapping_lookup_char hc hyc]
    exact h
  · rw [canonical_lookup, if_neg hy] at h
    cases h

/-- The last-seen MGI member of a component is a member with namespace
`"MGI"`. -/
theorem lastMGI_spec {c : List GeneId} {r : GeneId}
    (h : lastMGI c = some r) : r ∈ c ∧ r.ns = "MGI" := by
  induction c with
  | nil => simp [lastMGI] at h
  | cons y rest ih =>
    simp only [lastMGI] at h
    cases hr : lastMGI rest with
    | some r2 =>
      rw [hr] at h
      have h2 : r2 = r := Option.some.inj h
      rw [h2] at hr
      obtain ⟨hm, hn⟩ := ih hr
      exact ⟨List.mem_cons_of_mem _ hm, hn⟩
    | none =>
      rw [hr] at h
      by_cases hy : y.ns = "MGI"
      · rw [if_pos hy] at h
        have h2 : y = r := Option.some.inj h
        subst h2
        exact ⟨List.mem_cons_self _ _, hy⟩
      · rw [if_neg hy] at h
        cases h

/-- Looking up any value in the mapping's range returns that value itself:
the representative of a component is a member of the same component, so the
loop of cell 12 maps it to itself. -/
theorem mapping_range_selfkey {g : UGraph} {x r : GeneId}
    (h : dlookup (canonicalMapping g) x = some r) :
    dlookup (canonicalMapping g) r = some r := by
  obtain ⟨c, hc, _, hlm⟩ := mapping_some_elim h
  obtain ⟨hrc, _⟩ := lastMGI_spec hlm
  rw [mapping_lookup_char hc hrc, hlm]


/-! ### Lemmas about the relabeling fold -/

theorem dictUpdate_isSome_left {d e : AttrDict} {k : String}
    (h : (dlookup d k).isSome = true) :
    (dlookup (dictUpdate d e) k).isSome = true := by
  unfold dictUpdate
  rw [dlookup_append]
  cases he : dlookup e k with
  | some v => simp
  | none => simpa using h

theorem dictUpdate_isSome_right {d e : AttrDict} {k : String}
    (h : (dlookup e k).isSome = true) :
    (dlookup (dictUpdate d e) k).isSome = true := by
  unfold dictUpdate
  rw [dlookup_append]
  cases he : dlookup e k with
  | some v => simp
  | none => rw [he] at h; cases h

theorem insertMerge_labels_present {acc : List (GeneId × AttrDict)}
    {n : GeneId} {old : AttrDict} (h : dlookup acc n = some old)
    (d : AttrDict) :
    (insertMerge acc n d).map Prod.fst = acc.map Prod.fst := by
  unfold insertMerge
  rw [h, List.map_map]
  refine List.map_congr_left ?_
  intro kv _
  by_cases hk : kv.1 = n <;> simp [hk]

theorem insertMerge_labels_absent {acc : List (GeneId × AttrDict)}
    {n : GeneId} (h : dlookup acc n = none) (d : AttrDict) :
    (insertMerge acc n d).map Prod.fst = acc.map Prod.fst ++ [n] := by
  unfold insertMerge
  rw [h, List.map_append]
  rfl

theorem mem_insertMerge_labels (acc : List (GeneId × AttrDict))
    (n : GeneId) (d : AttrDict) (x : GeneId) :
    x ∈ (insertMerge acc n d).map Prod.fst ↔
      x ∈ acc.map Prod.fst ∨ x = n := by
  cases h : dlookup acc n with
  | some old =>
    rw [insertMerge_labels_present h]
    constructor
    · exact Or.inl
    · rintro (hx | rfl)
      · exact hx
      · exact (dlookup_isSome_iff acc x).mp (by simp [h])
  | none =>
    rw [insertMerge_labels_absent h]
    simp

theorem nodup_insertMerge_labels {acc : List (GeneId × AttrDict)}
    (hn : (acc.map Prod.fst).Nodup) (n : GeneId) (d : AttrDict) :
    ((insertMerge acc n d).map Prod.fst).Nodup := by
  cases h : dlookup acc n with
  | some old => rw [insertMerge_labels_present h]; exact hn
  | none =>
    rw [insertMerge_labels_absent h]
    have hnotin : n ∉ acc.map Prod.fst := (dlookup_eq_none_iff acc n).mp h
    simp [List.nodup_append, hn, hnotin]

theorem dlookup_map_update {acc : List (GeneId × AttrDict)} {n : GeneId}
    {old : AttrDict} (h : dlookup acc n = some old) (v : AttrDict) :
    dlookup (acc.map (fun kv => if kv.1 = n then (n, v) else kv)) n =
      some v := by
  induction acc with
  | nil => simp [dlookup] at h
  | cons kv rest ih =>
    by_cases hk : kv.1 = n
    · simp [dlookup, hk]
    · simp only [dlookup, if_neg hk] at h
      simp [dlookup, hk, ih h]

theorem dlookup_map_update_other (acc : List (GeneId × AttrDict))
    {n m : GeneId} (hnm : m ≠ n) (v : AttrDict) :
    dlookup (acc.map (fun kv => if kv.1 = n then (n, v) else kv)) m =
      dlookup acc m := by
  induction acc with
  | nil => rfl
  | cons kv rest ih =>
    by_cases hk : kv.1 = n
    · have h1 : ¬(n = m) := fun he => hnm he.symm
      simp [dlookup, hk, h1, ih]
    · by_cases hm : kv.1 = m <;> simp [dlookup, hk, hm, hnm, ih]

theorem dlookup_insertMerge_self (acc : List (GeneId × AttrDict))
    (n : GeneId) (d : AttrDict) :
    dlookup (insertMerge acc n d) n =
      some (match dlookup acc n with
            | some old => dictUpdate old d
            | none => d) := by
  cases h : dlookup acc n with
  | some old =>
    unfold insertMerge
    rw [h]
    exact dlookup_map_update h _
  | none =>
    unfold insertMerge
    rw [h, dlookup_append, h]
    simp [dlookup]

theorem dlookup_insertMerge_other {acc : List (GeneId × AttrDict)}
    {n m : GeneId} (hnm : m ≠ n) (d : AttrDict) :
    dlookup (insertMerge acc n d) m = dlookup acc m := by
  cases h : dlookup acc n with
  | some old =>
    unfold insertMerge
    rw [h]
    exact dlookup_map_update_other acc hnm _
  | none =>
    unfold insertMerge
    rw [h, dlookup_append]
    cases hm : dlookup acc m with
    | some v => simp
    | none =>
      have h1 : ¬(n = m) := fun he => hnm he.symm
      simp [dlookup, h1]

theorem nodup_relabelFold (mp : List (GeneId × GeneId))
    (nodes : List (GeneId × AttrDict)) (acc : List (GeneId × AttrDict))
    (hn : (acc.map Prod.fst).Nodup) :
    ((nodes.foldl (relabelStep mp) acc).map Prod.fst).Nodup := by
  induction nodes generalizing acc with
  | nil => simpa
  | cons nd rest ih =>
    exact ih _ (nodup_insertMerge_labels hn _ _)

theorem mem_relabelFold_labels (mp : List (GeneId × GeneId))
    (nodes : List (GeneId × AttrDict)) (acc : List (GeneId × AttrDict))
    (x : GeneId) :
    x ∈ (nodes.foldl (relabelStep mp) acc).map Prod.fst ↔
      x ∈ acc.map Prod.fst ∨ ∃ nd ∈ nodes, relabelFn mp nd.1 = x := by
  induction nodes generalizing acc with
  | nil => simp
  | cons nd rest ih =>
    simp only [List.foldl_cons, ih, relabelStep, mem_insertMerge_labels,
      List.mem_cons]
    constructor
    · rintro ((hx | rfl) | ⟨nd2, h2, hx⟩)
      · exact Or.inl hx
      · exact Or.inr ⟨nd, Or.inl rfl, rfl⟩
      · exact Or.inr ⟨nd2, Or.inr h2, hx⟩
    · rintro (hx | ⟨nd2, (rfl | h2), hx⟩)
      · exact Or.inl (Or.inl hx)
      · exact Or.inl (Or.inr hx.symm)
      · exact Or.inr ⟨nd2, h2, hx⟩

theorem relabelFold_preserve (mp : List (GeneId × GeneId))
    (nodes : List (GeneId × AttrDict)) (acc : List (GeneId × AttrDict))
    {c : GeneId} {k : String} {dc : AttrDict}
    (hc : dlookup acc c = some dc) (hk : (dlookup dc k).isSome = true) :
    ∃ dc2, dlookup (nodes.foldl (relabelStep mp) acc) c = some dc2 ∧
      (dlookup dc2 k).isSome = true := by
  induction nodes generalizing acc dc with
  | nil => exact ⟨dc, hc, hk⟩
  | cons nd rest ih =>
    simp only [List.foldl_cons, relabelStep]
    by_cases hn : relabelFn mp nd.1 = c
    · rw [hn]
      refine ih _ (dlookup_insertMerge_self acc c nd.2) ?_
      rw [hc]
      exact dictUpdate_isSome_left hk
    · have hne : c ≠ relabelFn mp nd.1 := fun he => hn he.symm
      refine ih _ ?_ hk
      rw [dlookup_insertMerge_other hne, hc]

theorem relabelFold_attr_key (mp : List (GeneId × GeneId))
    (nodes : List (GeneId × AttrDict)) (acc : List (GeneId × AttrDict))
    {nd : GeneId × AttrDict} (hmem : nd ∈ nodes) {k : String}
    (hk : (dlookup nd.2 k).isSome = true) :
    ∃ dc2, dlookup (nodes.foldl (relabelStep mp) acc)
        (relabelFn mp nd.1) = some dc2 ∧ (dlookup dc2 k).isSome = true := by
  induction nodes generalizing acc with
  | nil => simp at hmem
  | cons x rest ih =>
    simp only [List.foldl_cons, relabelStep]
    rcases List.mem_cons.mp hmem with rfl | hmem2
    · refine relabelFold_preserve mp rest _
        (dlookup_insertMerge_self acc (relabelFn mp nd.1) nd.2) ?_
      cases h : dlookup acc (relabelFn mp nd.1) with
      | some old => exact dictUpdate_isSome_right hk
      | none => exact hk
    · exact ih _ hmem2

theorem relabelFold_frame (mp : List (GeneId × GeneId))
    (nodes : List (GeneId × AttrDict)) (acc : List (GeneId × AttrDict))
    {c : GeneId} (h : ∀ nd ∈ nodes, relabelFn mp nd.1 ≠ c) :
    dlookup (nodes.foldl (relabelStep mp) acc) c = dlookup acc c := by
  induction nodes generalizing acc with
  | nil => rfl
  | cons nd rest ih =>
    simp only [List.foldl_cons, relabelStep]
    rw [ih _ (fun x hx => h x (List.mem_cons_of_mem _ hx))]
    have hne : c ≠ relabelFn mp nd.1 :=
      fun he => h nd (List.mem_cons_self _ _) he.symm
    rw [dlookup_insertMerge_other hne]

theorem relabelFold_unique (mp : List (GeneId × GeneId))
    (nodes : List (GeneId × AttrDict)) (acc : List (GeneId × AttrDict))
    {c n : GeneId} {d : AttrDict} (hacc : dlookup acc c = none)
    (hmem : (n, d) ∈ nodes) (hrel : relabelFn mp n = c)
    (honly : ∀ nd ∈ nodes, relabelFn mp nd.1 = c → nd = (n, d))
    (hnd : (nodes.map Prod.fst).Nodup) :
    dlookup (nodes.foldl (relabelStep mp) acc) c = some d := by
  induction nodes generalizing acc with
  | nil => simp at hmem
  | cons x rest ih =>
    simp only [List.map_cons, List.nodup_cons] at hnd
    simp only [List.foldl_cons, relabelStep]
    rcases List.mem_cons.mp hmem with rfl | hmem2
    · simp only [hrel]
      have hrest : ∀ nd ∈ rest, relabelFn mp nd.1 ≠ c := by
        intro nd hnd2 hc
        have := honly nd (List.mem_cons_of_mem _ hnd2) hc
        subst this
        exact hnd.1 (List.mem_map_of_mem Prod.fst hnd2)
      rw [relabelFold_frame mp rest _ hrest]
      rw [dlookup_insertMerge_self, hacc]
    · have hxne : relabelFn mp x.1 ≠ c := by
        intro hc
        have hx := honly x (List.mem_cons_self _ _) hc
        subst hx
        exact hnd.1 (List.mem_map_of_mem Prod.fst hmem2)
      have hne : c ≠ relabelFn mp x.1 := fun he => hxne he.symm
      refine ih _ ?_ hmem2
        (fun nd hnd2 hc => honly nd (List.mem_cons_of_mem _ hnd2) hc) hnd.2
      rw [dlookup_insertMerge_other hne, hacc]

/-! ### Lemmas about the node-data pass (cell 17) -/

theorem mndFun_fst (orthAttr : GeneId → AttrDict)
    (mp : List (GeneId × GeneId)) (nd : GeneId × AttrDict) :
    (mndFun orthAttr mp nd).1 = nd.1 := by
  unfold mndFun
  cases dlookup nd.2 "type" with
  | none => rfl
  | some t =>
    cases dlookup mp nd.1 with
    | none => rfl
    | some c => by_cases h : t ∈ allowedTypes <;> simp [h]

theorem mndFun_absent (orthAttr : GeneId → AttrDict)
    {mp : List (GeneId × GeneId)} {nd : GeneId × AttrDict}
    (h : dlookup mp nd.1 = none) : mndFun orthAttr mp nd = nd := by
  unfold mndFun
  rw [h]
  cases dlookup nd.2 "type" <;> rfl

theorem mapNodeData_labels (g : DiGraph) (orthAttr : GeneId → AttrDict)
    (mp : List (GeneId × GeneId)) :
    (mapNodeData g orthAttr mp).nodes.map Prod.fst =
      g.nodes.map Prod.fst := by
  unfold mapNodeData
  simp only [List.map_map]
  exact List.map_congr_left (fun nd _ => mndFun_fst orthAttr mp nd)

theorem mndFun_attr_keys (orthAttr : GeneId → AttrDict)
    (mp : List (GeneId × GeneId)) (nd : GeneId × AttrDict) {k : String}
    (h : (dlookup nd.2 k).isSome = true) :
    (dlookup (mndFun orthAttr mp nd).2 k).isSome = true := by
  unfold mndFun
  cases dlookup nd.2 "type" with
  | none => exact h
  | some t =>
    cases dlookup mp nd.1 with
    | none => exact h
    | some c =>
      by_cases ht : t ∈ allowedTypes
      · simp only [if_pos ht]
        exact dictUpdate_isSome_left h
      · simp only [if_neg ht]
        exact h

/-! ### Remaining helper lemmas -/

/-- A component with no MGI member has no last-seen MGI member. -/
theorem lastMGI_none {c : List GeneId} (h : ∀ m ∈ c, m.ns ≠ "MGI") :
    lastMGI c = none := by
  induction c with
  | nil => rfl
  | cons y rest ih =>
    simp only [lastMGI]
    rw [ih (fun m hm => h m (List.mem_cons_of_mem _ hm))]
    simp [h y (List.mem_cons_self _ _)]

/-- The labels surviving cells 17-18 are exactly the relabeled originals:
renaming is governed solely by key-membership in the mapping. -/
theorem applyMapping_labels (g : DiGraph) (oa : GeneId → AttrDict)
    (mp : List (GeneId × GeneId)) (x : GeneId) :
    x ∈ (applyMapping g oa mp).nodes.map Prod.fst ↔
      ∃ nd ∈ g.nodes, relabelFn mp nd.1 = x := by
  unfold applyMapping relabelNodes
  rw [mem_relabelFold_labels]
  simp only [List.map_nil, List.not_mem_nil, false_or]
  unfold mapNodeData
  constructor
  · rintro ⟨nd, hnd, hx⟩
    obtain ⟨nd0, hnd0, rfl⟩ := List.mem_map.mp hnd
    rw [mndFun_fst] at hx
    exact ⟨nd0, hnd0, hx⟩
  · rintro ⟨nd0, hnd0, hx⟩
    refine ⟨mndFun oa mp nd0, List.mem_map_of_mem _ hnd0, ?_⟩
    rw [mndFun_fst]
    exact hx

/-! ### The claims -/

/-- C1, counterexample to the claim as stated: in the worked example the
mouse gene `(Gene, MGI, "Trp53")` is NOT absent from the mapping's keys —
the loop of cell 12 iterates over every graph node, including the MGI
representative itself, so the mapping contains the identity entry
`(Gene, MGI, "Trp53") ↦ (Gene, MGI, "Trp53")`. -/
theorem C1_counterexample :
    dlookup (canonicalMapping exGraph) tp53M = some tp53M := by decide

/-- C1, amended: the edge set of the worked example produces exactly one
component of size 3, and the canonical mapping sends the human and rat
genes to the mouse gene — but it also contains the mouse gene itself as a
key, mapped to itself. -/
theorem C1_example_mapping :
    componentsOf exGraph = [[tp53H, tp53M, tp53R]] ∧
    dlookup (canonicalMapping exGraph) tp53H = some tp53M ∧
    dlookup (canonicalMapping exGraph) tp53R = some tp53M ∧
    canonicalMapping exGraph =
      [(tp53R, tp53M), (tp53M, tp53M), (tp53H, tp53M)] := by decide

/-- C4: the canonical mapping is idempotent after one application — every
value in its range, looked up again (defaulting to itself), returns
itself. -/
theorem C4_idempotent (g : UGraph) (k r : GeneId)
    (h : dlookup (canonicalMapping g) k = some r) :
    (dlookup (canonicalMapping g) r).getD r = r := by
  rw [mapping_range_selfkey h]
  rfl

/-- Witness for C4 at the worked example. -/
theorem C4_idempotent_witness :
    dlookup (canonicalMapping exGraph) tp53H = some tp53M ∧
    (dlookup (canonicalMapping exGraph) tp53M).getD tp53M = tp53M :=
  ⟨by decide, C4_idempotent exGraph tp53H tp53M (by decide)⟩

/-- C5: every mapped value has namespace MGI and lies in the same computed
component as its key, and the construction is deterministic in its
input. -/
theorem C5_reference_same_component (g : UGraph) (k r : GeneId)
    (h : dlookup (canonicalMapping g) k = some r) :
    r.ns = "MGI" ∧ (∃ c ∈ componentsOf g, k ∈ c ∧ r ∈ c) ∧
    ∀ g2 : UGraph, g2 = g → canonicalMapping g2 = canonicalMapping g := by
  obtain ⟨c, hc, hkc, hlm⟩ := mapping_some_elim h
  obtain ⟨hrc, hns⟩ := lastMGI_spec hlm
  exact ⟨hns, ⟨c, hc, hkc, hrc⟩, fun g2 he => by rw [he]⟩

/-- Witness for C5 at the worked example. -/
theorem C5_reference_same_component_witness :
    tp53M.ns = "MGI" ∧
    (∃ c ∈ componentsOf exGraph, tp53H ∈ c ∧ tp53M ∈ c) ∧
    ∀ g2 : UGraph, g2 = exGraph →
      canonicalMapping g2 = canonicalMapping exGraph :=
  C5_reference_same_component exGraph tp53H tp53M (by decide)

/-- C6: the representative recorded for a component is exactly its MGI
member encountered last in the scan, and every member of the component is
mapped to that representative. -/
theorem C6_last_MGI_wins (g : UGraph) (i : Nat) (c : CompPart)
    (hc : findCompAt 0 (componentsOf g) i = some c) :
    dlookup (buildTables (componentsOf g)).2 i = lastMGI c ∧
    ∀ r, lastMGI c = some r → ∀ m ∈ c,
      dlookup (canonicalMapping g) m = some r := by
  constructor
  · rw [i2m_lookup, hc]
  · intro r hr m hm
    rw [mapping_lookup_char (findCompAt_mem hc) hm, hr]

/-- Witness for C6 on a component with two MGI members: the second one
wins. -/
theorem C6_last_MGI_wins_witness :
    lastMGI [mgiA, mgiB] = some mgiB ∧
    mgiA.ns = "MGI" ∧ mgiB.ns = "MGI" ∧
    (dlookup (buildTables (componentsOf twoMGIGraph)).2 0 =
        lastMGI [mgiA, mgiB] ∧
      ∀ r, lastMGI [mgiA, mgiB] = some r → ∀ m ∈ [mgiA, mgiB],
        dlookup (canonicalMapping twoMGIGraph) m = some r) :=
  ⟨by decide, by decide, by decide,
    C6_last_MGI_wins twoMGIGraph 0 [mgiA, mgiB] (by decide)⟩

/-- C7: for every edge set, the computed components partition the touched
node set — every touched node lies in exactly one component, components
contain only touched nodes, and distinct components are disjoint. -/
theorem C7_components_partition (E : List (GeneId × GeneId)) :
    (∀ x, x ∈ (graphOfEdges E).allNodes ↔ ∃ e ∈ E, x = e.1 ∨ x = e.2) ∧
    (∀ x ∈ (graphOfEdges E).allNodes,
      ∃ p, (p ∈ componentsOf (graphOfEdges E) ∧ x ∈ p) ∧
        ∀ q, q ∈ componentsOf (graphOfEdges E) → x ∈ q → q = p) ∧
    (∀ p ∈ componentsOf (graphOfEdges E), ∀ x ∈ p,
      x ∈ (graphOfEdges E).allNodes) ∧
    (componentsOf (graphOfEdges E)).Pairwise List.Disjoint := by
  refine ⟨?_, ?_, ?_, (componentsOf_inv _).disj⟩
  · intro x
    rw [mem_allNodes]
    simp [graphOfEdges]
  · intro x hx
    obtain ⟨p, hp, hxp⟩ := (componentsOf_cover _ x).mpr hx
    exact ⟨p, ⟨hp, hxp⟩,
      fun q hq hxq => comp_unique (componentsOf_inv _) hq hp hxq hxp⟩
  · intro p hp x hxp
    exact (componentsOf_cover _ x).mp ⟨p, hp, hxp⟩

/-- Witness for C7 at the worked example's edge set. -/
theorem C7_components_partition_witness :
    ∃ p, (p ∈ componentsOf (graphOfEdges [(tp53H, tp53M), (tp53M, tp53R)]) ∧
        tp53H ∈ p) ∧
      ∀ q, q ∈ componentsOf (graphOfEdges [(tp53H, tp53M), (tp53M, tp53R)]) →
        tp53H ∈ q → q = p :=
  (C7_components_partition [(tp53H, tp53M), (tp53M, tp53R)]).2.1 tp53H
    (by decide)

/-- C8: a component without any MGI member contributes no keys at all to
the mapping (its members are not even mapped to themselves), silently; and
the empty input yields the empty mapping. -/
theorem C8_no_reference_silent (g : UGraph) :
    (∀ c ∈ componentsOf g, (∀ m ∈ c, m.ns ≠ "MGI") →
      ∀ x ∈ c, dlookup (canonicalMapping g) x = none) ∧
    canonicalMapping ⟨[], []⟩ = [] := by
  constructor
  · intro c hc hn x hx
    rw [mapping_lookup_char hc hx, lastMGI_none hn]
  · rfl

/-- Witness for C8 on the MGI-less FOO component. -/
theorem C8_no_reference_silent_witness :
    dlookup (canonicalMapping fooGraph) fooH = none ∧
    dlookup (canonicalMapping fooGraph) fooR = none :=
  ⟨(C8_no_reference_silent fooGraph).1 [fooH, fooR] (by decide) (by decide)
      fooH (by decide),
   (C8_no_reference_silent fooGraph).1 [fooH, fooR] (by decide) (by decide)
      fooR (by decide)⟩

/-- C10: every node of the graph is a key of `member2index`, because the
component enumeration visits every node (isolated nodes form singleton
components) — so the membership guard of cell 12 never skips. -/
theorem C10_member2index_total (g : UGraph) (x : GeneId)
    (hx : x ∈ g.allNodes) :
    (dlookup (buildTables (componentsOf g)).1 x).isSome = true := by
  obtain ⟨c, hc, hxc⟩ := (componentsOf_cover g x).mpr hx
  obtain ⟨j, hj⟩ := findCompAt_self hc 0
  have hidx := findCompIdx_of_mem (componentsOf_inv g).disj hxc hj
  rw [m2i_lookup, hidx]
  rfl

/-- Witness for C10 on a graph with an isolated declared node: the
isolated node forms a singleton component and is a `member2index` key. -/
theorem C10_member2index_total_witness :
    componentsOf isoGraph = [[tp53H, tp53M], [fooH]] ∧
    (dlookup (buildTables (componentsOf isoGraph)).1 fooH).isSome = true :=
  ⟨by decide, C10_member2index_total isoGraph fooH (by decide)⟩

/-- C2, counterexample to the claim as stated: cell 18 relabels EVERY node
that is a key of the mapping, regardless of its `type` attribute — a node
of type `Pathology` that is a key is still renamed, so "renamed iff type
allowed and key" fails in the only-if direction. -/
theorem C2_counterexample :
    dlookup badTypeTarget.nodes tp53H = some [("type", "Pathology")] ∧
    "Pathology" ∉ allowedTypes ∧
    dlookup (canonicalMapping exGraph) tp53H = some tp53M ∧
    (applyMapping badTypeTarget exOrthAttr (canonicalMapping exGraph)).nodes =
      [(tp53M, [("type", "Pathology")])] ∧
    tp53H ∉ (applyMapping badTypeTarget exOrthAttr
        (canonicalMapping exGraph)).nodes.map Prod.fst := by decide

/-- C2, amended: a node is renamed to its mapping value exactly when it is
a key of the mapping (the `type` guard of cell 17 only gates the attribute
merge, not the renaming of cell 18); a qualifying node such as
`(Gene, HGNC, "TP53")` with type `Gene` ends up under the identity
`(Gene, MGI, "Trp53")` carrying the merged attributes of the original and
the orthology node. -/
theorem C2_rename_iff_key :
    (∀ (g : DiGraph) (oa : GeneId → AttrDict) (mp : List (GeneId × GeneId))
        (x : GeneId),
      x ∈ (applyMapping g oa mp).nodes.map Prod.fst ↔
        ∃ nd ∈ g.nodes, relabelFn mp nd.1 = x) ∧
    (applyMapping goodTarget exOrthAttr
        (canonicalMapping exGraph)).nodes.map Prod.fst = [tp53M] ∧
    attrOf (applyMapping goodTarget exOrthAttr (canonicalMapping exGraph))
      tp53M "foo" = some "bar" ∧
    attrOf (applyMapping goodTarget exOrthAttr (canonicalMapping exGraph))
      tp53M "species" = some "10090" ∧
    attrOf (applyMapping goodTarget exOrthAttr (canonicalMapping exGraph))
      tp53M "type" = some "Gene" :=
  ⟨applyMapping_labels, by decide, by decide, by decide, by decide⟩

/-- C3: when two distinct target nodes map to the same canonical
identifier, the relabeled graph holds exactly one node under that
identifier, every incident edge of either node is re-pointed to it (with
its data), and every attribute key of either node survives into the merged
attribute dictionary. -/
theorem C3_collision_merges (g : DiGraph) (mp : List (GeneId × GeneId))
    (n1 n2 c : GeneId) (d1 d2 : AttrDict)
    (h1 : (n1, d1) ∈ g.nodes) (h2 : (n2, d2) ∈ g.nodes) (_hne : n1 ≠ n2)
    (hm1 : dlookup mp n1 = some c) (hm2 : dlookup mp n2 = some c) :
    ((relabelNodes g mp).nodes.map Prod.fst).count c = 1 ∧
    (∀ u v dat, (u, v, dat) ∈ g.edges →
      (relabelFn mp u, relabelFn mp v, dat) ∈ (relabelNodes g mp).edges) ∧
    ∀ k, ((dlookup d1 k).isSome = true ∨ (dlookup d2 k).isSome = true) →
      ∃ dc, dlookup (relabelNodes g mp).nodes c = some dc ∧
        (dlookup dc k).isSome = true := by
  have hrel1 : relabelFn mp n1 = c := by simp [relabelFn, hm1]
  have hrel2 : relabelFn mp n2 = c := by simp [relabelFn, hm2]
  refine ⟨?_, ?_, ?_⟩
  · have hnodup : ((relabelNodes g mp).nodes.map Prod.fst).Nodup := by
      unfold relabelNodes
      exact nodup_relabelFold mp g.nodes [] (by simp)
    have hmemc : c ∈ (relabelNodes g mp).nodes.map Prod.fst := by
      unfold relabelNodes
      rw [mem_relabelFold_labels]
      exact Or.inr ⟨(n1, d1), h1, hrel1⟩
    have hle := List.nodup_iff_count_le_one.mp hnodup c
    have hge := List.count_pos_iff.mpr hmemc
    omega
  · intro u v dat huv
    unfold relabelNodes
    exact List.mem_map_of_mem _ huv
  · intro k hk
    unfold relabelNodes
    rcases hk with hk | hk
    · have h3 := relabelFold_attr_key mp g.nodes [] h1 hk
      simpa [hrel1] using h3
    · have h3 := relabelFold_attr_key mp g.nodes [] h2 hk
      simpa [hrel2] using h3

/-- Witness for C3 on a concrete two-node collision. -/
theorem C3_collision_merges_witness :
    ((relabelNodes colGraph colMap).nodes.map Prod.fst).count colC = 1 ∧
    (∀ u v dat, (u, v, dat) ∈ colGraph.edges →
      (relabelFn colMap u, relabelFn colMap v, dat) ∈
        (relabelNodes colGraph colMap).edges) ∧
    ∀ k, ((dlookup [("a", "1")] k).isSome = true ∨
        (dlookup [("b", "2")] k).isSome = true) →
      ∃ dc, dlookup (relabelNodes colGraph colMap).nodes colC = some dc ∧
        (dlookup dc k).isSome = true :=
  C3_collision_merges colGraph colMap colA colB colC [("a", "1")]
    [("b", "2")] (by decide) (by decide) (by decide) (by decide) (by decide)

/-- C9: a target node that is not a key of the canonical mapping is left
completely untouched by cells 17-18 — it survives with its identity and
its exact attribute dictionary, and nothing else ends up under its label;
absence from the mapping raises no error (the model is total). -/
theorem C9_unmapped_untouched (g0 : UGraph) (g : DiGraph)
    (oa : GeneId → AttrDict) (n : GeneId) (d : AttrDict)
    (hlab : (g.nodes.map Prod.fst).Nodup)
    (hmem : (n, d) ∈ g.nodes)
    (habs : dlookup (canonicalMapping g0) n = none) :
    (n, d) ∈ (applyMapping g oa (canonicalMapping g0)).nodes ∧
    ∀ d2, (n, d2) ∈ (applyMapping g oa (canonicalMapping g0)).nodes →
      d2 = d := by
  have hmem2 : (n, d) ∈ (mapNodeData g oa (canonicalMapping g0)).nodes := by
    unfold mapNodeData
    have h4 := List.mem_map_of_mem (mndFun oa (canonicalMapping g0)) hmem
    rw [mndFun_absent oa habs] at h4
    exact h4
  have hlab2 : ((mapNodeData g oa (canonicalMapping g0)).nodes.map
      Prod.fst).Nodup := by
    rw [mapNodeData_labels]
    exact hlab
  have hrel : relabelFn (canonicalMapping g0) n = n := by
    simp [relabelFn, habs]
  have honly : ∀ nd ∈ (mapNodeData g oa (canonicalMapping g0)).nodes,
      relabelFn (canonicalMapping g0) nd.1 = n → nd = (n, d) := by
    intro nd hnd hr
    obtain ⟨nd0, hnd0, rfl⟩ := List.mem_map.mp hnd
    obtain ⟨a, b⟩ := nd0
    rw [mndFun_fst] at hr
    cases hd : dlookup (canonicalMapping g0) (a, b).1 with
    | some r =>
      rw [show relabelFn (canonicalMapping g0) (a, b).1 = r by
        simp [relabelFn, hd]] at hr
      subst hr
      have hcontr := mapping_range_selfkey hd
      rw [habs] at hcontr
      cases hcontr
    | none =>
      simp only [relabelFn, hd] at hr
      subst hr
      have hbd : b = d := mem_values_unique hlab hnd0 hmem
      subst hbd
      exact mndFun_absent oa hd
  have hfinal : dlookup (applyMapping g oa (canonicalMapping g0)).nodes n =
      some d := by
    unfold applyMapping relabelNodes
    exact relabelFold_unique (canonicalMapping g0) _ [] rfl hmem2 hrel
      honly hlab2
  refine ⟨dlookup_mem hfinal, ?_⟩
  intro d2 hd2
  have hnodup : ((applyMapping g oa
      (canonicalMapping g0)).nodes.map Prod.fst).Nodup := by
    unfold applyMapping relabelNodes
    exact nodup_relabelFold _ _ [] (by simp)
  exact mem_values_unique hnodup hd2 (dlookup_mem hfinal)

/-- Witness for C9: the unmapped FOO node of a two-node target graph comes
through cells 17-18 with identity and attributes intact. -/
theorem C9_unmapped_untouched_witness :
    (fooH, [("type", "Gene"), ("x", "y")]) ∈
      (applyMapping frameTarget exOrthAttr
        (canonicalMapping exGraph)).nodes ∧
    ∀ d2, (fooH, d2) ∈ (applyMapping frameTarget exOrthAttr
        (canonicalMapping exGraph)).nodes →
      d2 = [("type", "Gene"), ("x", "y")] :=
  C9_unmapped_untouched exGraph frameTarget exOrthAttr fooH
    [("type", "Gene"), ("x", "y")] (by decide) (by decide) (by decide)
